import Mathlib

/-! Shallow embedding of the `rangler` streaming line-transformation utility
(src/pipeline.rs and the run loop of src/main.rs).

Strings are Lean `String`s; the Rust per-character primitives
(`to_lowercase`, `to_uppercase`, `trim`, byte length `len`) are embedded
by explicit functions over the character list, using the host's
per-character case-folding and whitespace primitives.  The external regex
engine (`regex::Regex`) is abstracted: a compile function
`String → Option (String → Bool)` stands for `Regex::new` (`none` models a
pattern that fails to compile) and the returned predicate stands for
`Regex::is_match`.  UTF-8 decoding of a record (`std::str::from_utf8`) is
likewise abstracted as a `decode : List Nat → Option String` parameter of
the run loop; `asciiDecode` below is its concrete instantiation on
all-ASCII byte lists, where it agrees with UTF-8 decoding exactly. -/

namespace Rangler

/-- Lower-casing via the host's per-character case-folding primitive
(models Rust `str::to_lowercase`). -/
def lowercase (s : String) : String := String.mk (s.data.map Char.toLower)

/-- Upper-casing via the host's per-character case-folding primitive
(models Rust `str::to_uppercase`). -/
def uppercase (s : String) : String := String.mk (s.data.map Char.toUpper)

/-- Whitespace test on one character (models Rust `char::is_whitespace`). -/
def isSpace (c : Char) : Bool := c.isWhitespace

/-- Whitespace removal at both ends (models Rust `str::trim`). -/
def trimString (s : String) : String :=
  String.mk (((s.data.dropWhile isSpace).reverse.dropWhile isSpace).reverse)

/-- UTF-8 byte length of a string (models Rust `str::len`). -/
def byteLength (s : String) : Nat := (s.data.map Char.utf8Size).sum

/-- The step enumeration of src/pipeline.rs (`enum PipelineStep`).
`Filter` holds the compiled matcher (abstracted as a predicate);
`Dedupe` holds its seen-set (a `HashSet<String>`, modelled as a
duplicate-free list) and its stored-byte counter (`usize`, modelled
as `Nat`). -/
inductive PipelineStep where
  | Filter (regex : String → Bool)
  | Lower
  | Upper
  | Trim
  | Dedupe (dupes : List String) (stored : Nat)
  | Append (suffix : String)
  | Prepend (pre : String)

/-- The pipeline of src/pipeline.rs (`struct Pipeline`): an ordered list
of steps. -/
structure Pipeline where
  steps : List PipelineStep

/-- The token-consuming loop of `Pipeline::build_pipeline`
(src/pipeline.rs).  `c` stands for `Regex::new`.  Each iteration reads
one keyword (compared case-insensitively); `filter`, `append` and
`prepend` additionally consume the following token as their argument. -/
def build_steps (c : String → Option (String → Bool)) :
    List String → Except String (List PipelineStep)
  | [] => Except.ok []
  | command :: rest =>
    if lowercase command = "filter" then
      match rest with
      | [] => Except.error "Missing regular expression"
      | arg :: rest2 =>
        match c arg with
        | none => Except.error "Invalid regular expression"
        | some r =>
          match build_steps c rest2 with
          | Except.error e => Except.error e
          | Except.ok steps => Except.ok (PipelineStep.Filter r :: steps)
    else if lowercase command = "lower" then
      match build_steps c rest with
      | Except.error e => Except.error e
      | Except.ok steps => Except.ok (PipelineStep.Lower :: steps)
    else if lowercase command = "upper" then
      match build_steps c rest with
      | Except.error e => Except.error e
      | Except.ok steps => Except.ok (PipelineStep.Upper :: steps)
    else if lowercase command = "trim" then
      match build_steps c rest with
      | Except.error e => Except.error e
      | Except.ok steps => Except.ok (PipelineStep.Trim :: steps)
    else if lowercase command = "dedupe" then
      match build_steps c rest with
      | Except.error e => Except.error e
      | Except.ok steps => Except.ok (PipelineStep.Dedupe [] 0 :: steps)
    else if lowercase command = "append" then
      match rest with
      | [] => Except.error "Missing suffix"
      | arg :: rest2 =>
        match build_steps c rest2 with
        | Except.error e => Except.error e
        | Except.ok steps => Except.ok (PipelineStep.Append arg :: steps)
    else if lowercase command = "prepend" then
      match rest with
      | [] => Except.error "Missing prefix"
      | arg :: rest2 =>
        match build_steps c rest2 with
        | Except.error e => Except.error e
        | Except.ok steps => Except.ok (PipelineStep.Prepend arg :: steps)
    else Except.error "Invalid command specified"

/-- `Pipeline::build_pipeline` (src/pipeline.rs).  The final
`steps.len() < 0` check of the source is kept verbatim: on `Nat`
(modelling `usize`) it can never hold, so the `"No commands specified"`
error is unreachable and an empty token list yields a zero-step
pipeline. -/
def build_pipeline (c : String → Option (String → Bool)) (tokens : List String) :
    Except String Pipeline :=
  match build_steps c tokens with
  | Except.error e => Except.error e
  | Except.ok steps =>
    if steps.length < 0 then Except.error "No commands specified"
    else Except.ok ⟨steps⟩

/-- The step loop of `Pipeline::apply` (src/pipeline.rs).  The running
value threads through the steps; the returned list is the step list
after the call (the mutation of Dedupe seen-sets and counters in the
source's `iter_mut` loop), which on an early `return None` keeps the
already-performed updates of earlier steps and leaves the remaining
steps untouched. -/
def applySteps : List PipelineStep → String → Option String × List PipelineStep
  | [], output => (some output, [])
  | PipelineStep.Filter r :: rest, output =>
    if r output = false then
      (none, PipelineStep.Filter r :: rest)
    else
      ((applySteps rest output).1, PipelineStep.Filter r :: (applySteps rest output).2)
  | PipelineStep.Append suffix :: rest, output =>
    ((applySteps rest (output ++ suffix)).1,
      PipelineStep.Append suffix :: (applySteps rest (output ++ suffix)).2)
  | PipelineStep.Prepend pre :: rest, output =>
    ((applySteps rest (pre ++ output)).1,
      PipelineStep.Prepend pre :: (applySteps rest (pre ++ output)).2)
  | PipelineStep.Dedupe dupes stored :: rest, output =>
    if dupes.contains output then
      (none, PipelineStep.Dedupe dupes stored :: rest)
    else
      ((applySteps rest output).1,
        PipelineStep.Dedupe (output :: dupes) (stored + byteLength output)
          :: (applySteps rest output).2)
  | PipelineStep.Lower :: rest, output =>
    ((applySteps rest (lowercase output)).1,
      PipelineStep.Lower :: (applySteps rest (lowercase output)).2)
  | PipelineStep.Upper :: rest, output =>
    ((applySteps rest (uppercase output)).1,
      PipelineStep.Upper :: (applySteps rest (uppercase output)).2)
  | PipelineStep.Trim :: rest, output =>
    ((applySteps rest (trimString output)).1,
      PipelineStep.Trim :: (applySteps rest (trimString output)).2)

/-- `Pipeline::apply` (src/pipeline.rs): `&mut self` is made explicit,
so the call returns the transformed line (or `none` for a dropped line)
together with the pipeline after the call. -/
def Pipeline.apply (p : Pipeline) (line : String) : Option String × Pipeline :=
  ((applySteps p.steps line).1, ⟨(applySteps p.steps line).2⟩)

/-- `Pipeline::get_memory` (src/pipeline.rs): fold over the steps adding
each Dedupe step's stored-byte counter. -/
def Pipeline.get_memory (p : Pipeline) : Nat :=
  p.steps.foldl
    (fun memory step =>
      memory +
        (match step with
          | PipelineStep.Dedupe _ bytes => bytes
          | _ => 0))
    0

/-- Record segmentation of the run loop of src/main.rs: `read_until(b'\n')`
splits the byte stream at each newline byte (10), the newline byte staying
at the end of its record, and a final run of bytes with no trailing
newline still forms a record. -/
def splitRecords : List Nat → List (List Nat)
  | [] => []
  | b :: rest =>
    if b = 10 then [10] :: splitRecords rest
    else
      match splitRecords rest with
      | [] => [[b]]
      | r :: rs => (b :: r) :: rs

/-- The per-record loop of `inner_main` (src/main.rs): each record is
decoded (`decode` stands for `std::str::from_utf8`); a record that fails
to decode is skipped; otherwise `apply` runs and a surviving line is
collected for output.  Returns the surviving lines in order together
with the final pipeline state. -/
def runLoop (decode : List Nat → Option String) (p : Pipeline) :
    List (List Nat) → List String × Pipeline
  | [] => ([], p)
  | record :: rest =>
    match decode record with
    | none => runLoop decode p rest
    | some line =>
      match Pipeline.apply p line with
      | (none, p2) => runLoop decode p2 rest
      | (some out, p2) =>
        (out :: (runLoop decode p2 rest).1, (runLoop decode p2 rest).2)

/-- `inner_main` (src/main.rs) without the progress display: build the
pipeline from the argument tokens, split the input byte stream into
records, run the loop, and write each surviving line followed by exactly
one newline (`line + "\n"`). -/
def inner_main (decode : List Nat → Option String)
    (c : String → Option (String → Bool)) (args : List String)
    (input : List Nat) : Except String (String × Pipeline) :=
  match build_pipeline c args with
  | Except.error e => Except.error e
  | Except.ok p =>
    ((String.join (((runLoop decode p (splitRecords input)).1).map (fun l => l ++ "\n"))),
      (runLoop decode p (splitRecords input)).2) |> Except.ok

/-- UTF-8 decoding restricted to all-ASCII byte lists: bytes below 128
decode to themselves and any other list is rejected.  On all-ASCII
inputs this agrees exactly with `std::str::from_utf8`. -/
def asciiDecode (bs : List Nat) : Option String :=
  if bs.all (fun b => decide (b < 128)) then some (String.mk (bs.map Char.ofNat))
  else none

/-- The byte list of an ASCII string, for feeding the run-loop model. -/
def asciiBytes (s : String) : List Nat := s.data.map Char.toNat

/-- The keyword a constructed step came from (specification side, for
stating the order guarantee of construction). -/
def stepKind : PipelineStep → String
  | PipelineStep.Filter _ => "filter"
  | PipelineStep.Lower => "lower"
  | PipelineStep.Upper => "upper"
  | PipelineStep.Trim => "trim"
  | PipelineStep.Dedupe _ _ => "dedupe"
  | PipelineStep.Append _ => "append"
  | PipelineStep.Prepend _ => "prepend"

/-- The command keywords of a token list in order, lowercased, skipping
the argument token consumed by `filter`, `append` and `prepend`
(specification side, for stating the order guarantee). -/
def commandKeywords : List String → List String
  | [] => []
  | command :: rest =>
    if lowercase command = "filter" ∨ lowercase command = "append" ∨
        lowercase command = "prepend" then
      match rest with
      | [] => [lowercase command]
      | _ :: rest2 => lowercase command :: commandKeywords rest2
    else lowercase command :: commandKeywords rest

/-- Well-formedness of a token list (specification side): every keyword
is recognized and `filter`, `append`, `prepend` each have their argument,
the `filter` argument compiling under `c`. -/
def tokensOk (c : String → Option (String → Bool)) : List String → Bool
  | [] => true
  | command :: rest =>
    if lowercase command = "filter" then
      match rest with
      | [] => false
      | arg :: rest2 => (c arg).isSome && tokensOk c rest2
    else if lowercase command = "append" ∨ lowercase command = "prepend" then
      match rest with
      | [] => false
      | _ :: rest2 => tokensOk c rest2
    else if lowercase command = "lower" ∨ lowercase command = "upper" ∨
        lowercase command = "trim" ∨ lowercase command = "dedupe" then
      tokensOk c rest
    else false

/-- The stored-byte counter of a step: the counter of a Dedupe step,
zero for every other step (specification side, for memory accounting). -/
def dedupeBytes : PipelineStep → Nat
  | PipelineStep.Dedupe _ bytes => bytes
  | _ => 0

/-- Whether a step is a Dedupe step. -/
def isDedupe : PipelineStep → Bool
  | PipelineStep.Dedupe _ _ => true
  | _ => false

/-- Whether a step can drop a line (`return None` in `Pipeline::apply`):
only Filter and Dedupe steps can. -/
def dropsLine : PipelineStep → Bool
  | PipelineStep.Filter _ => true
  | PipelineStep.Dedupe _ _ => true
  | _ => false

/-- Relation between a step before and after being evaluated once on a
line that it did not drop: a Dedupe step has inserted exactly one value
(one that was not yet in its seen-set) and increased its counter by that
value's byte length; every other step is unchanged. -/
def evaluatedRel : PipelineStep → PipelineStep → Prop
  | PipelineStep.Dedupe dupes stored, t =>
    ∃ v, dupes.contains v = false ∧
      t = PipelineStep.Dedupe (v :: dupes) (stored + byteLength v)
  | s, t => t = s

/-- A compile function under which every pattern fails to compile, for
concrete instances that use no `filter` step. -/
def noRegex : String → Option (String → Bool) := fun _ => none

/-- On success, `build_steps` produces steps whose kinds are exactly the
command keywords of the token list in order, and every Dedupe step it
produces starts with an empty seen-set and a zero counter. -/
theorem build_steps_sound (c : String → Option (String → Bool)) :
    ∀ tokens steps, build_steps c tokens = Except.ok steps →
      steps.map stepKind = commandKeywords tokens ∧
      ∀ s ∈ steps, ∀ d n, s = PipelineStep.Dedupe d n → d = [] ∧ n = 0 := by
  intro tokens
  induction tokens using build_steps.induct c with
  | case1 =>
    intro steps h
    rw [build_steps.eq_def] at h
    simp at h
    subst h
    exact ⟨rfl, by simp⟩
  | case2 cmd hcmd =>
    intro steps h
    rw [build_steps.eq_def] at h
    simp [hcmd] at h
  | case3 cmd hcmd arg rest2 hcr =>
    intro steps h
    rw [build_steps.eq_def] at h
    simp [hcmd, hcr] at h
  | case4 cmd hcmd arg rest2 r hcr e herr ih =>
    intro steps h
    rw [build_steps.eq_def] at h
    simp [hcmd, hcr, herr] at h
  | case5 cmd hcmd arg rest2 r hcr steps2 hok ih =>
    intro steps h
    rw [build_steps.eq_def] at h
    simp [hcmd, hcr, hok] at h
    subst h
    obtain ⟨ha, hb⟩ := ih steps2 hok
    constructor
    · rw [commandKeywords.eq_def]
      simp [hcmd, stepKind, ha]
    · intro s hs d n heq
      rcases List.mem_cons.mp hs with h1 | h1
      · subst h1; simp at heq
      · exact hb s h1 d n heq
  | case6 cmd rest2 hn1 hcmd e herr ih =>
    intro steps h
    rw [build_steps.eq_def] at h
    simp [hcmd, herr] at h
  | case7 cmd rest2 hn1 hcmd steps2 hok ih =>
    intro steps h
    rw [build_steps.eq_def] at h
    simp [hcmd, hok] at h
    subst h
    obtain ⟨ha, hb⟩ := ih steps2 hok
    constructor
    · rw [commandKeywords.eq_def]
      simp [hcmd, stepKind, ha]
    · intro s hs d n heq
      rcases List.mem_cons.mp hs with h1 | h1
      · subst h1; simp at heq
      · exact hb s h1 d n heq
  | case8 cmd rest2 hn1 hn2 hcmd e herr ih =>
    intro steps h
    rw [build_steps.eq_def] at h
    simp [hcmd, herr] at h
  | case9 cmd rest2 hn1 hn2 hcmd steps2 hok ih =>
    intro steps h
    rw [build_steps.eq_def] at h
    simp [hcmd, hok] at h
    subst h
    obtain ⟨ha, hb⟩ := ih steps2 hok
    constructor
    · rw [commandKeywords.eq_def]
      simp [hcmd, stepKind, ha]
    · intro s hs d n heq
      rcases List.mem_cons.mp hs with h1 | h1
      · subst h1; simp at heq
      · exact hb s h1 d n heq
  | case10 cmd rest2 hn1 hn2 hn3 hcmd e herr ih =>
    intro steps h
    rw [build_steps.eq_def] at h
    simp [hcmd, herr] at h
  | case11 cmd rest2 hn1 hn2 hn3 hcmd steps2 hok ih =>
    intro steps h
    rw [build_steps.eq_def] at h
    simp [hcmd, hok] at h
    subst h
    obtain ⟨ha, hb⟩ := ih steps2 hok
    constructor
    · rw [commandKeywords.eq_def]
      simp [hcmd, stepKind, ha]
    · intro s hs d n heq
      rcases List.mem_cons.mp hs with h1 | h1
      · subst h1; simp at heq
      · exact hb s h1 d n heq
  | case12 cmd rest2 hn1 hn2 hn3 hn4 hcmd e herr ih =>
    intro steps h
    rw [build_steps.eq_def] at h
    simp [hcmd, herr] at h
  | case13 cmd rest2 hn1 hn2 hn3 hn4 hcmd steps2 hok ih =>
    intro steps h
    rw [build_steps.eq_def] at h
    simp [hcmd, hok] at h
    subst h
    obtain ⟨ha, hb⟩ := ih steps2 hok
    constructor
    · rw [commandKeywords.eq_def]
      simp [hcmd, stepKind, ha]
    · intro s hs d n heq
      rcases List.mem_cons.mp hs with h1 | h1
      · subst h1
        injection heq with h2 h3
        exact ⟨h2.symm, h3.symm⟩
      · exact hb s h1 d n heq
  | case14 cmd hn1 hn2 hn3 hn4 hn5 hcmd =>
    intro steps h
    rw [build_steps.eq_def] at h
    simp [hcmd] at h
  | case15 cmd hn1 hn2 hn3 hn4 hn5 hcmd arg rest2 e herr ih =>
    intro steps h
    rw [build_steps.eq_def] at h
    simp [hcmd, herr] at h
  | case16 cmd hn1 hn2 hn3 hn4 hn5 hcmd arg rest2 steps2 hok ih =>
    intro steps h
    rw [build_steps.eq_def] at h
    simp [hcmd, hok] at h
    subst h
    obtain ⟨ha, hb⟩ := ih steps2 hok
    constructor
    · rw [commandKeywords.eq_def]
      simp [hcmd, stepKind, ha]
    · intro s hs d n heq
      rcases List.mem_cons.mp hs with h1 | h1
      · subst h1; simp at heq
      · exact hb s h1 d n heq
  | case17 cmd hn1 hn2 hn3 hn4 hn5 hn6 hcmd =>
    intro steps h
    rw [build_steps.eq_def] at h
    simp [hcmd] at h
  | case18 cmd hn1 hn2 hn3 hn4 hn5 hn6 hcmd arg rest2 e herr ih =>
    intro steps h
    rw [build_steps.eq_def] at h
    simp [hcmd, herr] at h
  | case19 cmd hn1 hn2 hn3 hn4 hn5 hn6 hcmd arg rest2 steps2 hok ih =>
    intro steps h
    rw [build_steps.eq_def] at h
    simp [hcmd, hok] at h
    subst h
    obtain ⟨ha, hb⟩ := ih steps2 hok
    constructor
    · rw [commandKeywords.eq_def]
      simp [hcmd, stepKind, ha]
    · intro s hs d n heq
      rcases List.mem_cons.mp hs with h1 | h1
      · subst h1; simp at heq
      · exact hb s h1 d n heq
  | case20 cmd rest2 hn1 hn2 hn3 hn4 hn5 hn6 hn7 =>
    intro steps h
    rw [build_steps.eq_def] at h
    simp [hn1, hn2, hn3, hn4, hn5, hn6, hn7] at h

/-- On a well-formed token list `build_steps` succeeds. -/
theorem build_steps_tokensOk (c : String → Option (String → Bool)) :
    ∀ tokens, tokensOk c tokens = true →
      ∃ steps, build_steps c tokens = Except.ok steps := by
  intro tokens
  induction tokens using build_steps.induct c with
  | case1 => exact fun _ => ⟨[], rfl⟩
  | case2 cmd hcmd =>
    intro h
    rw [tokensOk.eq_def] at h
    simp [hcmd] at h
  | case3 cmd hcmd arg rest2 hcr =>
    intro h
    rw [tokensOk.eq_def] at h
    simp [hcmd, hcr] at h
  | case4 cmd hcmd arg rest2 r hcr e herr ih =>
    intro h
    rw [tokensOk.eq_def] at h
    simp [hcmd] at h
    obtain ⟨steps2, hok⟩ := ih h.2
    rw [herr] at hok
    cases hok
  | case5 cmd hcmd arg rest2 r hcr steps2 hok ih =>
    intro h
    refine ⟨PipelineStep.Filter r :: steps2, ?_⟩
    rw [build_steps.eq_def]
    simp [hcmd, hcr, hok]
  | case6 cmd rest2 hn1 hcmd e herr ih =>
    intro h
    rw [tokensOk.eq_def] at h
    simp [hn1, hcmd] at h
    obtain ⟨steps2, hok⟩ := ih h
    rw [herr] at hok
    cases hok
  | case7 cmd rest2 hn1 hcmd steps2 hok ih =>
    intro h
    refine ⟨PipelineStep.Lower :: steps2, ?_⟩
    rw [build_steps.eq_def]
    simp [hcmd, hok]
  | case8 cmd rest2 hn1 hn2 hcmd e herr ih =>
    intro h
    rw [tokensOk.eq_def] at h
    simp [hn1, hcmd] at h
    obtain ⟨steps2, hok⟩ := ih h
    rw [herr] at hok
    cases hok
  | case9 cmd rest2 hn1 hn2 hcmd steps2 hok ih =>
    intro h
    refine ⟨PipelineStep.Upper :: steps2, ?_⟩
    rw [build_steps.eq_def]
    simp [hcmd, hok]
  | case10 cmd rest2 hn1 hn2 hn3 hcmd e herr ih =>
    intro h
    rw [tokensOk.eq_def] at h
    simp [hn1, hcmd] at h
    obtain ⟨steps2, hok⟩ := ih h
    rw [herr] at hok
    cases hok
  | case11 cmd rest2 hn1 hn2 hn3 hcmd steps2 hok ih =>
    intro h
    refine ⟨PipelineStep.Trim :: steps2, ?_⟩
    rw [build_steps.eq_def]
    simp [hcmd, hok]
  | case12 cmd rest2 hn1 hn2 hn3 hn4 hcmd e herr ih =>
    intro h
    rw [tokensOk.eq_def] at h
    simp [hn1, hcmd] at h
    obtain ⟨steps2, hok⟩ := ih h
    rw [herr] at hok
    cases hok
  | case13 cmd rest2 hn1 hn2 hn3 hn4 hcmd steps2 hok ih =>
    intro h
    refine ⟨PipelineStep.Dedupe [] 0 :: steps2, ?_⟩
    rw [build_steps.eq_def]
    simp [hcmd, hok]
  | case14 cmd hn1 hn2 hn3 hn4 hn5 hcmd =>
    intro h
    rw [tokensOk.eq_def] at h
    simp [hn1, hcmd] at h
  | case15 cmd hn1 hn2 hn3 hn4 hn5 hcmd arg rest2 e herr ih =>
    intro h
    rw [tokensOk.eq_def] at h
    simp [hn1, hcmd] at h
    obtain ⟨steps2, hok⟩ := ih h
    rw [herr] at hok
    cases hok
  | case16 cmd hn1 hn2 hn3 hn4 hn5 hcmd arg rest2 steps2 hok ih =>
    intro h
    refine ⟨PipelineStep.Append arg :: steps2, ?_⟩
    rw [build_steps.eq_def]
    simp [hcmd, hok]
  | case17 cmd hn1 hn2 hn3 hn4 hn5 hn6 hcmd =>
    intro h
    rw [tokensOk.eq_def] at h
    simp [hn1, hcmd] at h
  | case18 cmd hn1 hn2 hn3 hn4 hn5 hn6 hcmd arg rest2 e herr ih =>
    intro h
    rw [tokensOk.eq_def] at h
    simp [hn1, hcmd] at h
    obtain ⟨steps2, hok⟩ := ih h
    rw [herr] at hok
    cases hok
  | case19 cmd hn1 hn2 hn3 hn4 hn5 hn6 hcmd arg rest2 steps2 hok ih =>
    intro h
    refine ⟨PipelineStep.Prepend arg :: steps2, ?_⟩
    rw [build_steps.eq_def]
    simp [hcmd, hok]
  | case20 cmd rest2 hn1 hn2 hn3 hn4 hn5 hn6 hn7 =>
    intro h
    rw [tokensOk.eq_def] at h
    simp [hn1, hn2, hn3, hn4, hn5, hn6, hn7] at h

/-- C1: the run loop of `inner_main` does NOT strip the newline delimiter
from a record before passing it to `apply` (`read_until` keeps the
delimiter and nothing removes it), so the input stream
`"Foo\nfoo\nbar\n"` through the pipeline built from
`["lower", "dedupe"]` produces the output `"foo\n\nbar\n\n"` — each
surviving line keeps its own newline and gets one more on write — and
not the `"foo\nbar\n"` that the specification states. -/
theorem C1_run_loop_keeps_newline :
    inner_main asciiDecode noRegex ["lower", "dedupe"]
        (asciiBytes "Foo\nfoo\nbar\n") =
      Except.ok ("foo\n\nbar\n\n",
        ⟨[PipelineStep.Lower, PipelineStep.Dedupe ["bar\n", "foo\n"] 8]⟩) ∧
    ("foo\n\nbar\n\n" : String) ≠ "foo\nbar\n" :=
  ⟨rfl, by decide⟩

/-- C2: `build_pipeline` on the empty token list succeeds with a
zero-step pipeline (the source's `steps.len() < 0` guard can never
hold), producing no construction error. -/
theorem C2_empty_tokens_ok :
    ∀ c : String → Option (String → Bool),
      build_pipeline c [] = Except.ok ⟨[]⟩ :=
  fun _ => rfl

/-- C3: for the pipeline built from `["lower", "dedupe"]`, the first
`apply "fOo"` returns `some "foo"` (inserting "foo" and adding its 3
bytes to the counter) and a second `apply "fOo"` returns `none`; in
general a Dedupe step drops the line exactly when the running value is
in its seen-set, and otherwise inserts the running value, adds its byte
length to the counter, and continues with the running value unchanged. -/
theorem C3_dedupe_semantics :
    (∀ c : String → Option (String → Bool),
      build_pipeline c ["lower", "dedupe"] =
        Except.ok ⟨[PipelineStep.Lower, PipelineStep.Dedupe [] 0]⟩) ∧
    Pipeline.apply ⟨[PipelineStep.Lower, PipelineStep.Dedupe [] 0]⟩ "fOo" =
      (some "foo", ⟨[PipelineStep.Lower, PipelineStep.Dedupe ["foo"] 3]⟩) ∧
    (Pipeline.apply ⟨[PipelineStep.Lower, PipelineStep.Dedupe ["foo"] 3]⟩ "fOo").1 =
      none ∧
    (∀ (dupes : List String) (stored : Nat) (rest : List PipelineStep)
        (output : String),
      (dupes.contains output = true →
        applySteps (PipelineStep.Dedupe dupes stored :: rest) output =
          (none, PipelineStep.Dedupe dupes stored :: rest)) ∧
      (dupes.contains output = false →
        applySteps (PipelineStep.Dedupe dupes stored :: rest) output =
          ((applySteps rest output).1,
            PipelineStep.Dedupe (output :: dupes) (stored + byteLength output)
              :: (applySteps rest output).2))) := by
  refine ⟨fun _ => rfl, rfl, rfl, fun dupes stored rest output => ⟨?_, ?_⟩⟩
  · intro h
    have h2 : output ∈ dupes := by simpa using h
    simp [applySteps, h2]
  · intro h
    have h2 : output ∉ dupes := by simpa using h
    simp [applySteps, h2]

/-- Witness for C3: the general Dedupe clause applied at the concrete
seen-set `["x"]` and line `"x"` drops the line and keeps the state. -/
theorem C3_dedupe_semantics_witness :
    applySteps [PipelineStep.Dedupe ["x"] 1] "x" =
      (none, [PipelineStep.Dedupe ["x"] 1]) :=
  (C3_dedupe_semantics.2.2.2 ["x"] 1 [] "x").1 rfl

/-- C8: a record whose bytes fail to decode is silently skipped by the
run loop: `apply` is not called, the pipeline state is unchanged, no
output line is produced for it, and processing continues with the
remaining records — the run is never aborted. -/
theorem C8_bad_record_skipped :
    ∀ (decode : List Nat → Option String) (p : Pipeline) (record : List Nat)
      (rest : List (List Nat)),
      decode record = none →
        runLoop decode p (record :: rest) = runLoop decode p rest := by
  intro decode p record rest h
  simp [runLoop, h]

/-- Witness for C8: the non-ASCII record `[200]` is rejected by
`asciiDecode` and skipped by the run loop. -/
theorem C8_bad_record_skipped_witness :
    asciiDecode [200] = none ∧
    runLoop asciiDecode ⟨[]⟩ [[200]] = runLoop asciiDecode ⟨[]⟩ [] :=
  ⟨rfl, C8_bad_record_skipped asciiDecode ⟨[]⟩ [200] [] rfl⟩

/-- C4 counterexample: the claim quotes the construction error messages
in lower case, but the code's messages are capitalized: `filter` with no
following token fails with "Missing regular expression", not
"missing regular expression". -/
theorem C4_message_case_counterexample :
    build_pipeline noRegex ["filter"] ≠
        Except.error "missing regular expression" ∧
    build_pipeline noRegex ["filter"] =
        Except.error "Missing regular expression" := by
  constructor
  · intro h
    rw [show build_pipeline noRegex ["filter"] =
        Except.error "Missing regular expression" from rfl] at h
    simp at h
  · rfl

/-- C4 (amended): `build_pipeline` fails with "Missing regular
expression" when `filter` has no following token, with "Invalid regular
expression" when the `filter` argument fails to compile, with
"Missing suffix" / "Missing prefix" when `append` / `prepend` has no
following token, and with "Invalid command specified" for a keyword
outside the recognized set (keywords compared case-insensitively); on a
token list triggering none of these conditions construction succeeds. -/
theorem C4_build_errors :
    ∀ c : String → Option (String → Bool),
      (∀ cmd, lowercase cmd = "filter" →
        build_pipeline c [cmd] = Except.error "Missing regular expression") ∧
      (∀ cmd arg rest, lowercase cmd = "filter" → c arg = none →
        build_pipeline c (cmd :: arg :: rest) =
          Except.error "Invalid regular expression") ∧
      (∀ cmd, lowercase cmd = "append" →
        build_pipeline c [cmd] = Except.error "Missing suffix") ∧
      (∀ cmd, lowercase cmd = "prepend" →
        build_pipeline c [cmd] = Except.error "Missing prefix") ∧
      (∀ cmd rest,
        lowercase cmd ∉ (["filter", "append", "prepend", "trim", "lower",
          "upper", "dedupe"] : List String) →
        build_pipeline c (cmd :: rest) =
          Except.error "Invalid command specified") ∧
      (∀ tokens, tokensOk c tokens = true →
        ∃ p, build_pipeline c tokens = Except.ok p) := by
  intro c
  refine ⟨?_, ?_, ?_, ?_, ?_, ?_⟩
  · intro cmd hcmd
    simp [build_pipeline, build_steps, hcmd]
  · intro cmd arg rest hcmd hc
    simp [build_pipeline, build_steps, hcmd, hc]
  · intro cmd hcmd
    simp [build_pipeline, build_steps, hcmd]
  · intro cmd hcmd
    simp [build_pipeline, build_steps, hcmd]
  · intro cmd rest h
    simp only [List.mem_cons, List.not_mem_nil, or_false, not_or] at h
    obtain ⟨h1, h2, h3, h4, h5, h6, h7⟩ := h
    have hb : build_steps c (cmd :: rest) =
        Except.error "Invalid command specified" := by
      rw [build_steps.eq_def]
      simp [h1, h2, h3, h4, h5, h6, h7]
    simp [build_pipeline, hb]
  · intro tokens ht
    obtain ⟨steps, hok⟩ := build_steps_tokensOk c tokens ht
    exact ⟨⟨steps⟩, by simp [build_pipeline, hok]⟩

/-- Witness for C4: `["filter"]` fails with the (capitalized) missing
regular expression message, and the well-formed list
`["trim", "append", "x"]` succeeds. -/
theorem C4_build_errors_witness :
    build_pipeline noRegex ["filter"] =
        Except.error "Missing regular expression" ∧
    ∃ p, build_pipeline noRegex ["trim", "append", "x"] = Except.ok p :=
  ⟨(C4_build_errors noRegex).1 "filter" rfl,
    (C4_build_errors noRegex).2.2.2.2.2 ["trim", "append", "x"] rfl⟩

/-- C5: whenever `build_pipeline` succeeds, the steps of the resulting
pipeline appear in exactly the order their keywords appeared in the
token list, and every Dedupe step starts with an empty seen-set and a
zero stored-byte counter. -/
theorem C5_build_order :
    ∀ (c : String → Option (String → Bool)) (tokens : List String) (p : Pipeline),
      build_pipeline c tokens = Except.ok p →
        p.steps.map stepKind = commandKeywords tokens ∧
        ∀ s ∈ p.steps, ∀ d n, s = PipelineStep.Dedupe d n → d = [] ∧ n = 0 := by
  intro c tokens p h
  cases hbs : build_steps c tokens with
  | error e =>
    simp [build_pipeline, hbs] at h
  | ok steps =>
    simp [build_pipeline, hbs] at h
    subst h
    exact build_steps_sound c tokens steps hbs

/-- Witness for C5: the pipeline built from `["lower", "dedupe"]` has
step kinds `["lower", "dedupe"]` and its Dedupe step starts empty. -/
theorem C5_build_order_witness :
    (⟨[PipelineStep.Lower, PipelineStep.Dedupe [] 0]⟩ : Pipeline).steps.map
        stepKind = commandKeywords ["lower", "dedupe"] ∧
    ∀ s ∈ (⟨[PipelineStep.Lower, PipelineStep.Dedupe [] 0]⟩ : Pipeline).steps,
      ∀ d n, s = PipelineStep.Dedupe d n → d = [] ∧ n = 0 :=
  C5_build_order noRegex ["lower", "dedupe"]
    ⟨[PipelineStep.Lower, PipelineStep.Dedupe [] 0]⟩ rfl

/-- C9: the pipeline with an empty step list is the identity on lines:
`apply` returns the line unchanged and leaves the (empty) state
unchanged. -/
theorem C9_empty_pipeline_identity :
    ∀ line : String, Pipeline.apply ⟨[]⟩ line = (some line, ⟨[]⟩) :=
  fun _ => rfl

/-- C6: one `apply` call splits the pipeline into an evaluated prefix
and an untouched tail: the result steps are the evaluated prefix (where
each Dedupe step performed exactly one insertion — which persists even
if a later step drops the line — and every non-Dedupe step is unchanged)
followed by the tail exactly as it was (no step after the dropping step
is evaluated, no later side effect occurs); the tail is nonempty exactly
when the line was dropped, and the dropping step at its head is a Filter
or Dedupe step. -/
theorem C6_apply_effects :
    ∀ (steps : List PipelineStep) (line : String),
      ∃ evalIn evalOut post,
        steps = evalIn ++ post ∧
        (applySteps steps line).2 = evalOut ++ post ∧
        List.Forall₂ evaluatedRel evalIn evalOut ∧
        ((applySteps steps line).1 = none ↔ post ≠ []) ∧
        (∀ s rest2, post = s :: rest2 → dropsLine s = true) := by
  intro steps
  induction steps with
  | nil =>
    intro line
    refine ⟨[], [], [], rfl, rfl, List.Forall₂.nil, ?_, ?_⟩
    · simp [applySteps]
    · intro s rest2 h
      simp at h
  | cons st rest ih =>
    intro line
    cases st with
    | Filter r =>
      cases hb : r line with
      | false =>
        refine ⟨[], [], PipelineStep.Filter r :: rest, rfl, ?_,
          List.Forall₂.nil, ?_, ?_⟩
        · simp [applySteps, hb]
        · simp [applySteps, hb]
        · intro s rest2 h
          cases h
          rfl
      | true =>
        obtain ⟨eIn, eOut, post, h1, h2, h3, h4, h5⟩ := ih line
        refine ⟨PipelineStep.Filter r :: eIn, PipelineStep.Filter r :: eOut,
          post, by rw [List.cons_append, ← h1], ?_,
          List.Forall₂.cons rfl h3, ?_, h5⟩
        · simp [applySteps, hb, h2]
        · simpa [applySteps, hb] using h4
    | Append suffix =>
      obtain ⟨eIn, eOut, post, h1, h2, h3, h4, h5⟩ := ih (line ++ suffix)
      refine ⟨PipelineStep.Append suffix :: eIn,
        PipelineStep.Append suffix :: eOut, post,
        by rw [List.cons_append, ← h1], ?_, List.Forall₂.cons rfl h3, ?_, h5⟩
      · simp [applySteps, h2]
      · simpa [applySteps] using h4
    | Prepend pre =>
      obtain ⟨eIn, eOut, post, h1, h2, h3, h4, h5⟩ := ih (pre ++ line)
      refine ⟨PipelineStep.Prepend pre :: eIn,
        PipelineStep.Prepend pre :: eOut, post,
        by rw [List.cons_append, ← h1], ?_, List.Forall₂.cons rfl h3, ?_, h5⟩
      · simp [applySteps, h2]
      · simpa [applySteps] using h4
    | Lower =>
      obtain ⟨eIn, eOut, post, h1, h2, h3, h4, h5⟩ := ih (lowercase line)
      refine ⟨PipelineStep.Lower :: eIn, PipelineStep.Lower :: eOut, post,
        by rw [List.cons_append, ← h1], ?_, List.Forall₂.cons rfl h3, ?_, h5⟩
      · simp [applySteps, h2]
      · simpa [applySteps] using h4
    | Upper =>
      obtain ⟨eIn, eOut, post, h1, h2, h3, h4, h5⟩ := ih (uppercase line)
      refine ⟨PipelineStep.Upper :: eIn, PipelineStep.Upper :: eOut, post,
        by rw [List.cons_append, ← h1], ?_, List.Forall₂.cons rfl h3, ?_, h5⟩
      · simp [applySteps, h2]
      · simpa [applySteps] using h4
    | Trim =>
      obtain ⟨eIn, eOut, post, h1, h2, h3, h4, h5⟩ := ih (trimString line)
      refine ⟨PipelineStep.Trim :: eIn, PipelineStep.Trim :: eOut, post,
        by rw [List.cons_append, ← h1], ?_, List.Forall₂.cons rfl h3, ?_, h5⟩
      · simp [applySteps, h2]
      · simpa [applySteps] using h4
    | Dedupe dupes stored =>
      cases hd : dupes.contains line with
      | true =>
        have hm : line ∈ dupes := by simpa using hd
        refine ⟨[], [], PipelineStep.Dedupe dupes stored :: rest, rfl, ?_,
          List.Forall₂.nil, ?_, ?_⟩
        · simp [applySteps, hm]
        · simp [applySteps, hm]
        · intro s rest2 h
          cases h
          rfl
      | false =>
        have hm : line ∉ dupes := by simpa using hd
        obtain ⟨eIn, eOut, post, h1, h2, h3, h4, h5⟩ := ih line
        refine ⟨PipelineStep.Dedupe dupes stored :: eIn,
          PipelineStep.Dedupe (line :: dupes) (stored + byteLength line)
            :: eOut, post,
          by rw [List.cons_append, ← h1], ?_,
          List.Forall₂.cons ⟨line, hd, rfl⟩ h3, ?_, h5⟩
        · simp [applySteps, hm, h2]
        · simpa [applySteps, hm] using h4

/-- Witness for C6: the effect decomposition at the one-step Dedupe
pipeline and the line "a". -/
theorem C6_apply_effects_witness :
    ∃ evalIn evalOut post,
      [PipelineStep.Dedupe [] 0] = evalIn ++ post ∧
      (applySteps [PipelineStep.Dedupe [] 0] "a").2 = evalOut ++ post ∧
      List.Forall₂ evaluatedRel evalIn evalOut ∧
      ((applySteps [PipelineStep.Dedupe [] 0] "a").1 = none ↔ post ≠ []) ∧
      (∀ s rest2, post = s :: rest2 → dropsLine s = true) :=
  C6_apply_effects [PipelineStep.Dedupe [] 0] "a"

/-- Fold characterization of the memory accounting loop. -/
theorem get_memory_foldl :
    ∀ (l : List PipelineStep) (n : Nat),
      l.foldl (fun memory step => memory +
          (match step with
            | PipelineStep.Dedupe _ bytes => bytes
            | _ => 0)) n =
        n + (l.map dedupeBytes).sum := by
  intro l
  induction l with
  | nil => intro n; simp
  | cons s rest ih =>
    intro n
    rw [List.foldl_cons, List.map_cons, List.sum_cons, ih]
    cases s
    all_goals simp [dedupeBytes]
    all_goals omega

/-- One `apply` call never decreases the total of the Dedupe byte
counters. -/
theorem applySteps_memory_mono :
    ∀ (steps : List PipelineStep) (line : String),
      (steps.map dedupeBytes).sum ≤
        (((applySteps steps line).2).map dedupeBytes).sum := by
  intro steps
  induction steps with
  | nil => intro line; simp [applySteps]
  | cons st rest ih =>
    intro line
    cases st with
    | Filter r =>
      cases hb : r line with
      | false => simp [applySteps, hb]
      | true => simpa [applySteps, hb, dedupeBytes] using ih line
    | Append suffix => simpa [applySteps, dedupeBytes] using ih (line ++ suffix)
    | Prepend pre => simpa [applySteps, dedupeBytes] using ih (pre ++ line)
    | Lower => simpa [applySteps, dedupeBytes] using ih (lowercase line)
    | Upper => simpa [applySteps, dedupeBytes] using ih (uppercase line)
    | Trim => simpa [applySteps, dedupeBytes] using ih (trimString line)
    | Dedupe dupes stored =>
      cases hd : dupes.contains line with
      | true =>
        have hm : line ∈ dupes := by simpa using hd
        simp [applySteps, hm]
      | false =>
        have hm : line ∉ dupes := by simpa using hd
        have h := ih line
        simp [applySteps, hm, dedupeBytes]
        omega

/-- C7: `get_memory` is the sum of the stored-byte counters of the
Dedupe steps (zero when there is no Dedupe step), it never decreases
across `apply` calls, and on the single-Dedupe pipeline it accumulates
exactly the byte lengths of the inserted lines ("a" then "bb" gives
1 + 2 = 3) and stays put when a duplicate is dropped. -/
theorem C7_memory_accounting :
    (∀ p : Pipeline, p.get_memory = (p.steps.map dedupeBytes).sum) ∧
    (∀ p : Pipeline, (∀ s ∈ p.steps, isDedupe s = false) →
      p.get_memory = 0) ∧
    (∀ (p : Pipeline) (line : String),
      p.get_memory ≤ ((p.apply line).2).get_memory) ∧
    (Pipeline.apply ⟨[PipelineStep.Dedupe [] 0]⟩ "a" =
        (some "a", ⟨[PipelineStep.Dedupe ["a"] 1]⟩) ∧
      Pipeline.apply ⟨[PipelineStep.Dedupe ["a"] 1]⟩ "bb" =
        (some "bb", ⟨[PipelineStep.Dedupe ["bb", "a"] 3]⟩) ∧
      Pipeline.get_memory ⟨[PipelineStep.Dedupe ["bb", "a"] 3]⟩ = 3 ∧
      Pipeline.apply ⟨[PipelineStep.Dedupe ["bb", "a"] 3]⟩ "a" =
        (none, ⟨[PipelineStep.Dedupe ["bb", "a"] 3]⟩)) := by
  have hmem : ∀ p : Pipeline, p.get_memory = (p.steps.map dedupeBytes).sum := by
    intro p
    rw [Pipeline.get_memory, get_memory_foldl]
    omega
  refine ⟨hmem, ?_, ?_, rfl, rfl, rfl, rfl⟩
  · intro p h
    rw [hmem]
    apply List.sum_eq_zero
    intro x hx
    obtain ⟨s, hs, rfl⟩ := List.mem_map.mp hx
    have h2 := h s hs
    cases s
    all_goals simp [dedupeBytes]
    all_goals simp [isDedupe] at h2
  · intro p line
    rw [hmem, hmem]
    exact applySteps_memory_mono p.steps line

/-- Witness for C7: a pipeline with no Dedupe step reports zero memory,
and memory does not decrease across an `apply` call. -/
theorem C7_memory_accounting_witness :
    Pipeline.get_memory ⟨[PipelineStep.Lower]⟩ = 0 ∧
    Pipeline.get_memory ⟨[PipelineStep.Dedupe ["a"] 1]⟩ ≤
      Pipeline.get_memory ((Pipeline.apply ⟨[PipelineStep.Dedupe ["a"] 1]⟩ "b").2) :=
  ⟨C7_memory_accounting.2.1 ⟨[PipelineStep.Lower]⟩ (by simp [isDedupe]),
    C7_memory_accounting.2.2.1 ⟨[PipelineStep.Dedupe ["a"] 1]⟩ "b"⟩

/-- Every step of a pipeline with no Filter and no Dedupe step is unable
to drop a line. -/
theorem applySteps_no_drop :
    ∀ (steps : List PipelineStep) (line : String),
      (∀ s ∈ steps, dropsLine s = false) →
        ((applySteps steps line).1).isSome = true := by
  intro steps
  induction steps with
  | nil => intro line h; simp [applySteps]
  | cons st rest ih =>
    intro line h
    have hs := h st (List.mem_cons_self st rest)
    have ht : ∀ s ∈ rest, dropsLine s = false :=
      fun s hsm => h s (List.mem_cons_of_mem st hsm)
    cases st with
    | Filter r => simp [dropsLine] at hs
    | Dedupe d n => simp [dropsLine] at hs
    | Append suffix => simpa [applySteps] using ih (line ++ suffix) ht
    | Prepend pre => simpa [applySteps] using ih (pre ++ line) ht
    | Lower => simpa [applySteps] using ih (lowercase line) ht
    | Upper => simpa [applySteps] using ih (uppercase line) ht
    | Trim => simpa [applySteps] using ih (trimString line) ht

/-- C10: a pipeline that contains no Filter step and no Dedupe step
never drops a line: `apply` returns `some` for every input line. -/
theorem C10_no_filter_no_dedupe_keeps_lines :
    ∀ (p : Pipeline) (line : String),
      (∀ s ∈ p.steps, (∀ r, s ≠ PipelineStep.Filter r) ∧
        (∀ d n, s ≠ PipelineStep.Dedupe d n)) →
      ∃ out, (p.apply line).1 = some out := by
  intro p line h
  have hd : ∀ s ∈ p.steps, dropsLine s = false := by
    intro s hs
    obtain ⟨h1, h2⟩ := h s hs
    cases s with
    | Filter r => exact absurd rfl (h1 r)
    | Dedupe d n => exact absurd rfl (h2 d n)
    | Append suffix => rfl
    | Prepend pre => rfl
    | Lower => rfl
    | Upper => rfl
    | Trim => rfl
  exact Option.isSome_iff_exists.mp (applySteps_no_drop p.steps line hd)

/-- Witness for C10: the Filter-free and Dedupe-free pipeline
`[lower, append "x"]` keeps the line "A". -/
theorem C10_no_filter_no_dedupe_witness :
    ∃ out,
      (Pipeline.apply ⟨[PipelineStep.Lower, PipelineStep.Append "x"]⟩ "A").1 =
        some out :=
  C10_no_filter_no_dedupe_keeps_lines
    ⟨[PipelineStep.Lower, PipelineStep.Append "x"]⟩ "A"
    (by
      intro s hs
      rcases List.mem_cons.mp hs with h | h
      · subst h
        exact ⟨fun r => by simp, fun d n => by simp⟩
      · rcases List.mem_cons.mp h with h2 | h2
        · subst h2
          exact ⟨fun r => by simp, fun d n => by simp⟩
        · simp at h2)

end Rangler
